import Mathlib

/-!
Shallow embedding of the workflow graph mutation and analysis core of the
n8n MCP server (the tool handlers `update_node`, `add_node`, `remove_node`,
`update_node_connections`, `validate_workflow`, `get_workflow_stats` from
the extracted server source).  Documents are plain in-memory values:
JSON objects become association lists (key order preserved, as in JS),
JSON arrays become lists, numbers that the code treats arithmetically
become integers, absent fields become `Option`.  The HTTP fetch/persist
boundary is out of scope: each handler is modelled as the pure transform
it applies between fetching the document and sending it back.
-/

namespace N8n

/-- A connection target, `{ node, type, index }` in the source. -/
structure Target where
  node : String
  type : String
  index : Nat
deriving DecidableEq

/-- The value of one slot-type entry: an array of output slots, each an
array of targets (`connections[src].main` is such a value). -/
abbrev Slots := List (List Target)

/-- A source entry of the connection map: slot-type name (e.g. "main")
to its slots, modelling the JS object `connections[src]`. -/
abbrev SlotMap := List (String × Slots)

/-- The whole `connections` object: source node name to its slot map. -/
abbrev Connections := List (String × SlotMap)

/-- A workflow node. `position` is `none` when the field is absent.
Parameter values are opaque to every operation modelled here, so they
are embedded as strings. -/
structure Node where
  id : String
  name : String
  type : String
  typeVersion : Nat
  position : Option (List Int)
  parameters : List (String × String)
deriving DecidableEq

/-- The workflow document (the fields the modelled handlers touch). -/
structure Workflow where
  name : String
  nodes : List Node
  connections : Connections
deriving DecidableEq

/-- JS object property read `obj[k]` on an association list. -/
def lookupKey (k : String) : List (String × α) → Option α
  | [] => none
  | e :: rest => if e.1 = k then some e.2 else lookupKey k rest

/-- JS object property write `obj[k] = v`: overwrite in place when the key
exists, otherwise append the new key at the end (JS insertion order). -/
def assignKey (k : String) (v : α) : List (String × α) → List (String × α)
  | [] => [(k, v)]
  | e :: rest => if e.1 = k then (k, v) :: rest else e :: assignKey k v rest

/-- JS `delete obj[k]` (keys of a JS object are unique, so deleting the
first occurrence models it). -/
def deleteKey (k : String) : List (String × α) → List (String × α)
  | [] => []
  | e :: rest => if e.1 = k then rest else e :: deleteKey k rest

/-- `Object.keys`. -/
def keys (l : List (String × α)) : List String := l.map (·.1)

/-- `nodes.find(node => node.id === ref || node.name === ref)` — the
single resolution pass shared by `get_node`, `update_node`, `remove_node`. -/
def resolveNode (ref : String) : List Node → Option Node
  | [] => none
  | n :: rest => if n.id = ref ∨ n.name = ref then some n else resolveNode ref rest

/-- `nodes.findIndex(node => node.id === ref || node.name === ref)`,
with `none` for the JS result `-1`. -/
def findNodeIdx (ref : String) : List Node → Option Nat
  | [] => none
  | n :: rest =>
      if n.id = ref ∨ n.name = ref then some 0 else (findNodeIdx ref rest).map (· + 1)

/-- The spread merge `{ ...originalNode.parameters, ...args.parameters }`:
existing keys keep their place and are overwritten, new keys are appended. -/
def mergeParams (old new : List (String × String)) : List (String × String) :=
  new.foldl (fun acc e => assignKey e.1 e.2 acc) old

/-- The incoming-edge rewrite of `update_node`: for each slot map, if it
has a `main` entry, rewrite every target named `oldName` to `newName`.
Only the `main` slot type is touched, exactly as in the source
(`if (connections[sourceName].main) ... forEach ... conn.node = newName`). -/
def renameTargetsMain (oldName newName : String) (sm : SlotMap) : SlotMap :=
  sm.map fun e =>
    if e.1 = "main" then
      (e.1, e.2.map fun slot =>
        slot.map fun c => if c.node = oldName then { c with node := newName } else c)
    else e

/-- The loop `Object.keys(connections).forEach(...)` of the rename pass,
applying `renameTargetsMain` under every source key. -/
def rewriteMainTargets (oldName newName : String) (conns : Connections) : Connections :=
  conns.map fun e => (e.1, renameTargetsMain oldName newName e.2)

/-- The connection rename pass of `update_node`: move the outgoing entry
(`connections[newName] = connections[oldName]; delete connections[oldName]`),
then rewrite incoming `main` targets over every source key of the moved map. -/
def renameConnections (oldName newName : String) (conns : Connections) : Connections :=
  let moved :=
    match lookupKey oldName conns with
    | some sm => deleteKey oldName (assignKey newName sm conns)
    | none => conns
  rewriteMainTargets oldName newName moved

/-- The patch accepted by `update_node` (`args.parameters`, `args.name`,
`args.position`). -/
structure NodePatch where
  parameters : Option (List (String × String)) := none
  name : Option String := none
  position : Option (List Int) := none

/-- Fallback node for indexing; `update_node` only reads the index
produced by `findNodeIdx`, which is always in bounds. -/
def defaultNode : Node :=
  { id := "", name := "", type := "", typeVersion := 0, position := none, parameters := [] }

/-- The `update_node` handler: resolve by id-or-name, shallow-merge
parameters, run the rename pass when the name changes, replace the
position when supplied, and store the updated node back at its index.
Returns the updated document and node. -/
def updateNode (w : Workflow) (ref : String) (p : NodePatch) :
    Except String (Workflow × Node) :=
  match findNodeIdx ref w.nodes with
  | none => .error ("Node with ID or name " ++ ref ++ " not found in workflow")
  | some i =>
      let orig := w.nodes.getD i defaultNode
      let node1 :=
        match p.parameters with
        | some ps => { orig with parameters := mergeParams orig.parameters ps }
        | none => orig
      let step2 : Connections × Node :=
        match p.name with
        | some newName =>
            (if newName ≠ orig.name then renameConnections orig.name newName w.connections
             else w.connections,
             { node1 with name := newName })
        | none => (w.connections, node1)
      let node3 :=
        match p.position with
        | some pos => { step2.2 with position := some pos }
        | none => step2.2
      .ok ({ w with nodes := w.nodes.set i node3, connections := step2.1 }, node3)

/-- The incoming-edge cleanup of `remove_node`: in each slot map, if it
has a `main` entry, filter the removed name out of every slot (slots are
kept in place even when they become empty).  Only `main` is touched. -/
def removeTargetsMain (nodeName : String) (sm : SlotMap) : SlotMap :=
  sm.map fun e =>
    if e.1 = "main" then (e.1, e.2.map fun slot => slot.filter fun c => ¬ c.node = nodeName)
    else e

/-- The loop over the remaining source keys of `remove_node`, applying
`removeTargetsMain` under each. -/
def filterMainTargets (nodeName : String) (conns : Connections) : Connections :=
  conns.map fun e => (e.1, removeTargetsMain nodeName e.2)

/-- The connection cleanup of `remove_node`: drop the removed node's own
source entry, then filter its name out of every remaining `main` slot. -/
def removeNodeConnections (nodeName : String) (conns : Connections) : Connections :=
  filterMainTargets nodeName (deleteKey nodeName conns)

/-- The `remove_node` handler: resolve by id-or-name, splice the node out,
cascade the connection cleanup.  Returns the new document and the removed
node. -/
def removeNode (w : Workflow) (ref : String) : Except String (Workflow × Node) :=
  match findNodeIdx ref w.nodes with
  | none => .error ("Node with ID or name " ++ ref ++ " not found in workflow")
  | some i =>
      let n := w.nodes.getD i defaultNode
      .ok ({ w with
              nodes := w.nodes.eraseIdx i,
              connections := removeNodeConnections n.name w.connections }, n)

/-- `node.position ? node.position[0] : 0` — the x-coordinate read used by
`add_node` when auto-positioning. -/
def nodeX (n : Node) : Int :=
  match n.position with
  | some p => p.headD 0
  | none => 0

/-- `nodes.reduce((max, node) => Math.max(max, nodeX), 0)`. -/
def maxNodeX (nodes : List Node) : Int :=
  nodes.foldl (fun m n => max m (nodeX n)) 0

/-- The `add_node` handler.  The random fresh id generation is modelled by
taking the allocated id as an argument (no claim depends on its value).
When no position is supplied the node is laid out at
`[maxNodeX + 300, 100]`. -/
def addNode (w : Workflow) (name nodeType : String)
    (params : Option (List (String × String))) (posArg : Option (List Int))
    (newId : String) : Except String (Workflow × Node) :=
  if w.nodes.any fun n => n.name = name then
    .error ("Node with name " ++ name ++ " already exists in workflow")
  else
    let position :=
      match posArg with
      | some p => p
      | none => [maxNodeX w.nodes + 300, 100]
    let newNode : Node :=
      { id := newId, name := name, type := nodeType, typeVersion := 1,
        position := some position, parameters := params.getD [] }
    .ok ({ w with nodes := w.nodes ++ [newNode] }, newNode)

/-- First target of one slot whose node name is unknown. -/
def firstInvalidInSlot (nodeNames : List String) : List Target → Option String
  | [] => none
  | c :: cs => if c.node ∈ nodeNames then firstInvalidInSlot nodeNames cs else some c.node

/-- First target of a `main` slot array whose node name is unknown
(the inner loops of `validateConnections` in the source). -/
def firstInvalidTarget (nodeNames : List String) : Slots → Option String
  | [] => none
  | slot :: rest =>
      match firstInvalidInSlot nodeNames slot with
      | some bad => some bad
      | none => firstInvalidTarget nodeNames rest

/-- The `validateConnections` closure of `update_node_connections`:
for each source entry in order, reject an unknown source key, then reject
the first unknown target under that entry's `main` slot type; `none` means
the map passed validation.  Targets under slot types other than `main`
are never inspected. -/
def validateConnections (nodeNames : List String) : Connections → Option String
  | [] => none
  | e :: rest =>
      if ¬ e.1 ∈ nodeNames then
        some ("Source node " ++ e.1 ++ " does not exist in workflow")
      else
        match lookupKey "main" e.2 with
        | some slots =>
            match firstInvalidTarget nodeNames slots with
            | some bad => some ("Target node " ++ bad ++ " does not exist in workflow")
            | none => validateConnections nodeNames rest
        | none => validateConnections nodeNames rest

/-- The `update_node_connections` handler: validate the supplied map
against current node names, then replace `connections` wholesale. -/
def setConnections (w : Workflow) (conns : Connections) : Except String Workflow :=
  match validateConnections (w.nodes.map (·.name)) conns with
  | some msg => .error msg
  | none => .ok { w with connections := conns }

/-- Membership in the `connectedNodes` set built by `validate_workflow`:
a name is connected when it is some source key, or appears as a target
under some source's `main` slot type. -/
def isConnectedName (conns : Connections) (name : String) : Bool :=
  conns.any fun e =>
    e.1 = name ||
      match lookupKey "main" e.2 with
      | some slots => slots.any fun slot => slot.any fun c => c.node = name
      | none => false

/-- The orphaned-node pass of `validate_workflow`: the names of the nodes
that receive an `orphaned_node` warning, in document order. -/
def orphanWarnings (w : Workflow) : List String :=
  w.nodes.filterMap fun n =>
    if ¬ isConnectedName w.connections n.name ∧ 1 < w.nodes.length then some n.name
    else none

/-- An execution record as read by `get_workflow_stats`; timestamps are
epoch milliseconds, absent fields are `none`. -/
structure ExecutionRecord where
  status : Option String
  finished : Option Bool
  startedAt : Int
  stoppedAt : Option Int
deriving DecidableEq

def msPerDay : Int := 24 * 60 * 60 * 1000

/-- The record filter of `get_workflow_stats`:
`new Date(exec.startedAt) >= cutoffDate` with
`cutoffDate = now - days*24*60*60*1000`.  The source checks only the lower
bound; there is no `<= now` test. -/
def recentExecutions (recs : List ExecutionRecord) (now days : Int) :
    List ExecutionRecord :=
  recs.filter fun r => now - days * msPerDay ≤ r.startedAt

/-- `exec.status === 'success' || exec.finished === true && !exec.stoppedAt`. -/
def isSuccessful (r : ExecutionRecord) : Bool :=
  r.status = some "success" || (r.finished = some true && r.stoppedAt = none)

/-- `exec.status === 'error' || exec.status === 'failed'`. -/
def isFailed (r : ExecutionRecord) : Bool :=
  r.status = some "error" || r.status = some "failed"

/-- `exec.status === 'running' || exec.status === 'waiting'`. -/
def isRunning (r : ExecutionRecord) : Bool :=
  r.status = some "running" || r.status = some "waiting"

/-- The counting outputs of `get_workflow_stats` (the fields the claims
are about).  `successRate` is kept as an exact rational; the source's
float rounding of a nonzero rate is not modelled, its zero-record branch
is the literal constant `0`. -/
structure WorkflowStats where
  totalExecutions : Nat
  successful : Nat
  failed : Nat
  running : Nat
  successRate : ℚ
deriving DecidableEq

/-- The statistics aggregation of `get_workflow_stats` over the fetched
execution list, at a given clock value `now` and window `days`. -/
def getWorkflowStats (recs : List ExecutionRecord) (now days : Int) : WorkflowStats :=
  let recent := recentExecutions recs now days
  let succ := recent.filter isSuccessful
  let fail := recent.filter isFailed
  let run := recent.filter isRunning
  { totalExecutions := recent.length
    successful := succ.length
    failed := fail.length
    running := run.length
    successRate :=
      if 0 < recent.length then (succ.length : ℚ) / (recent.length : ℚ) * 100 else 0 }

/-- One directed edge of the connection map: source name, slot type,
output slot position, stored target. -/
structure Edge where
  src : String
  slotType : String
  slot : Nat
  target : Target
deriving DecidableEq

/-- The edges contributed by the slot array of one slot-type entry,
numbering slots from `i`. -/
def slotsEdges (src ty : String) (i : Nat) : Slots → List Edge
  | [] => []
  | slot :: rest => slot.map (fun t => ⟨src, ty, i, t⟩) ++ slotsEdges src ty (i + 1) rest

/-- All edges stored under one source entry. -/
def slotMapEdges (src : String) (sm : SlotMap) : List Edge :=
  sm.flatMap fun e => slotsEdges src e.1 0 e.2

/-- Every (source, slot type, slot, target) edge of a connection map. -/
def connectionEdges (conns : Connections) : List Edge :=
  conns.flatMap fun e => slotMapEdges e.1 e.2

/-- The edges stored under the `main` slot type. -/
def mainEdges (conns : Connections) : List Edge :=
  (connectionEdges conns).filter fun e => e.slotType = "main"

/-- Renaming a node in an edge: both the source endpoint and the stored
target are rewritten when they carry the old name. -/
def renameEdge (oldName newName : String) (e : Edge) : Edge :=
  { e with
    src := if e.src = oldName then newName else e.src
    target :=
      if e.target.node = oldName then { e.target with node := newName } else e.target }

/-- Renaming only the stored target of an edge (the effect of the
incoming-edge rewrite on an edge whose source is not the renamed node). -/
def renameEdgeTarget (oldName newName : String) (e : Edge) : Edge :=
  { e with
    target :=
      if e.target.node = oldName then { e.target with node := newName } else e.target }

/-- Specification-side notion of a connected node name, following the
spec wording "appears as any connections key or any Target.node",
restricted to targets stored under the `main` slot type. -/
def specConnectedName (conns : Connections) (name : String) : Bool :=
  decide (name ∈ keys conns) || (mainEdges conns).any fun e => e.target.node = name

/-- Specification-side lookback-window membership, following the spec
wording: `startedAt` within the closed interval from `now − window` to
`now`. -/
def specInLookbackWindow (now days : Int) (r : ExecutionRecord) : Bool :=
  now - days * msPerDay ≤ r.startedAt && r.startedAt ≤ now

/-! ### Concrete fixture documents used by counterexamples and witnesses -/

def cNodeX : Node :=
  { id := "1", name := "X", type := "t", typeVersion := 1, position := none, parameters := [] }

def cNodeZ : Node :=
  { id := "2", name := "Z", type := "t", typeVersion := 1, position := none, parameters := [] }

def cNodeA : Node :=
  { id := "1", name := "A", type := "t", typeVersion := 1, position := none, parameters := [] }

def cNodeB : Node :=
  { id := "2", name := "B", type := "t", typeVersion := 1, position := none, parameters := [] }

/-- Two nodes, with the edge `Z -> X` stored under the slot type
`ai_tool` rather than `main`. -/
def cDocNonMain : Workflow :=
  { name := "w", nodes := [cNodeX, cNodeZ],
    connections := [("Z", [("ai_tool", [[⟨"X", "ai_tool", 0⟩]])])] }

/-- Two nodes named `A` and `B`, no connections. -/
def cDocDup : Workflow := { name := "w", nodes := [cNodeA, cNodeB], connections := [] }

/-- One node named `A`, no connections. -/
def cDocSet : Workflow := { name := "w", nodes := [cNodeA], connections := [] }

/-- A connection map whose only target, stored under a slot type other
than `main`, names a node that does not exist. -/
def cBadMap : Connections := [("A", [("ai_tool", [[⟨"Ghost", "ai_tool", 0⟩]])])]

/-- A node whose name collides with another node's id. -/
def cNodeNameX : Node :=
  { id := "a", name := "x", type := "t", typeVersion := 1, position := none, parameters := [] }

/-- A node whose id is the shared reference string. -/
def cNodeIdX : Node :=
  { id := "x", name := "b", type := "t", typeVersion := 1, position := none, parameters := [] }

/-- Two nodes where `A` points at `B` under a non-`main` slot type. -/
def cDocOrphan : Workflow :=
  { name := "w", nodes := [cNodeA, cNodeB],
    connections := [("A", [("ai_tool", [[⟨"B", "ai_tool", 0⟩]])])] }

/-- An execution record started after the aggregation clock `now = 0`. -/
def cFutureRec : ExecutionRecord :=
  { status := none, finished := none, startedAt := 5, stoppedAt := none }

/-- A record with an explicit `error` status that also satisfies the
`finished`-based success fallback. -/
def cErrRec : ExecutionRecord :=
  { status := some "error", finished := some true, startedAt := 0, stoppedAt := none }

/-- A record far older than any lookback cutoff used below. -/
def cOldRec : ExecutionRecord :=
  { status := some "success", finished := some true, startedAt := -100000000000,
    stoppedAt := none }

/-- Two nodes with mutual `main` edges `X -> Z` and `Z -> X`. -/
def cDocMain : Workflow :=
  { name := "w", nodes := [cNodeX, cNodeZ],
    connections := [("X", [("main", [[⟨"Z", "main", 0⟩]])]),
                    ("Z", [("main", [[⟨"X", "main", 0⟩]])])] }

/-- The document produced by renaming `X` to `Y` in `cDocMain`. -/
def cRenamedDoc : Workflow :=
  { name := "w",
    nodes := [{ cNodeX with name := "Y" }, cNodeZ],
    connections := [("Z", [("main", [[⟨"Y", "main", 0⟩]])]),
                    ("Y", [("main", [[⟨"Z", "main", 0⟩]])])] }

/-- Two nodes, `X -> Z` under `main`, and `Z`'s first `main` slot holding
only the target `X` (so it is emptied, not pruned, by removal). -/
def cDocRemove : Workflow :=
  { name := "w", nodes := [cNodeX, cNodeZ],
    connections := [("X", [("main", [[⟨"Z", "main", 0⟩]])]),
                    ("Z", [("main", [[⟨"X", "main", 0⟩], []])])] }

/-- The document produced by removing `X` from `cDocRemove`. -/
def cRemovedDoc : Workflow :=
  { name := "w", nodes := [cNodeZ], connections := [("Z", [("main", [[], []])])] }

/-- The empty starting document for the auto-position witness. -/
def cDocEmpty : Workflow := { name := "w", nodes := [], connections := [] }

/-- A fully valid replacement map over `cDocSet`: a self-loop on `A`. -/
def cValidMap : Connections := [("A", [("main", [[⟨"A", "main", 0⟩]])])]

/-! ### Theorems -/

/-- C1, counterexample: renaming node `X` to `Y` in a document whose only
edge to `X` is stored under the slot type `ai_tool` leaves a `Target.node`
equal to `X` (the rename pass rewrites only the `main` slot type), even
though the node list is renamed; the claim says no Target equals `X`
after the operation. -/
theorem updateNode_rename_nonmain_cex :
    (updateNode cDocNonMain "X" { name := some "Y" }).toOption.map
        (fun p => ((connectionEdges p.1.connections).map fun e => e.target.node,
                   p.1.nodes.map fun n => n.name)) =
      some (["X"], ["Y", "Z"]) := by decide

/-- C2: `update_node` performs no name-collision check.  On a document
with nodes `A` and `B`, renaming `A` to `B` succeeds and yields two nodes
named `B`, violating the unique-name invariant the spec states and that
`add_node` enforces; the claim (and spec) require a `ValidationError`
before any change. -/
theorem updateNode_name_collision_accepted :
    (updateNode cDocDup "A" { name := some "B" }).toOption.map
        (fun p => p.1.nodes.map fun n => n.name) = some ["B", "B"] := by decide

/-- C3, counterexample: a supplied map whose only target is stored under
the slot type `ai_tool` and names the nonexistent node `Ghost` passes
validation (only `main` targets are checked) and is installed wholesale,
where the claim requires a `ValidationError`. -/
theorem setConnections_nonmain_cex :
    (setConnections cDocSet cBadMap).toOption = some { cDocSet with connections := cBadMap } ∧
    ¬ "Ghost" ∈ cDocSet.nodes.map (fun n => n.name) ∧
    "Ghost" ∈ (connectionEdges cBadMap).map (fun e => e.target.node) := by decide

/-- C4, counterexample: removing node `X` from a document whose edge
`Z -> X` is stored under the slot type `ai_tool` leaves a Target equal to
`X` (the cleanup filters only `main` slots), though the node itself is
removed; the claim says no Target equals `X` after the operation. -/
theorem removeNode_nonmain_cex :
    (removeNode cDocNonMain "X").toOption.map
        (fun p => ((connectionEdges p.1.connections).map fun e => e.target.node,
                   p.1.nodes.length)) =
      some (["X"], 1) := by decide

/-- C5, counterexample: with a first node named `x` and a second node
whose id is `x`, resolving the reference `x` returns the first node (its
name matched), not the node matched by id, so id does not take precedence
over name: resolution is a single first-match scan over `id || name`. -/
theorem resolveNode_id_precedence_cex :
    (resolveNode "x" [cNodeNameX, cNodeIdX]).map (fun n => n.id) = some "a" ∧
    cNodeIdX.id = "x" ∧ ¬ cNodeNameX.id = "x" := by decide

/-- C6, counterexample: in a two-node document whose only edge `A -> B`
is stored under the slot type `ai_tool`, node `B` receives an orphan
warning although its name appears as a `Target.node`; the claim says a
node appearing as any `Target.node` is not flagged. -/
theorem orphanWarnings_nonmain_cex :
    orphanWarnings cDocOrphan = ["B"] ∧
    "B" ∈ (connectionEdges cDocOrphan.connections).map (fun e => e.target.node) := by
  decide

/-- C8, counterexample: a record started after `now` lies outside the
spec's lookback window `[now − days, now]`, yet the aggregator counts it
(`totalExecutions = 1`), because the source filter checks only the lower
bound; the claim then requires `totalExecutions = 0`. -/
theorem stats_window_upper_bound_cex :
    specInLookbackWindow 0 1 cFutureRec = false ∧
    (getWorkflowStats [cFutureRec] 0 1).totalExecutions = 1 := by decide

/-- C9, counterexample: a record with status `error`, `finished = true`
and no `stoppedAt` is counted both successful and failed: the
`finished`-based fallback applies even though the status field is
present, where the claim restricts the fallback to records with absent
status. -/
theorem stats_fallback_status_present_cex :
    cErrRec.status = some "error" ∧
    (getWorkflowStats [cErrRec] 0 1).successful = 1 ∧
    (getWorkflowStats [cErrRec] 0 1).failed = 1 := by decide

/-! ### Association-list lemmas -/

theorem keys_cons (e : String × α) (l : List (String × α)) :
    keys (e :: l) = e.1 :: keys l := rfl

theorem keys_append (l1 l2 : List (String × α)) :
    keys (l1 ++ l2) = keys l1 ++ keys l2 := by
  simp [keys]

theorem lookupKey_eq_none_iff (k : String) (l : List (String × α)) :
    lookupKey k l = none ↔ ¬ k ∈ keys l := by
  induction l with
  | nil => simp [lookupKey, keys]
  | cons e rest ih =>
      by_cases h : e.1 = k
      · rw [lookupKey, if_pos h]
        constructor
        · intro hc; cases hc
        · exact fun hk => absurd (List.mem_cons.2 (Or.inl h.symm)) hk
      · rw [lookupKey, if_neg h, ih, keys_cons]
        constructor
        · intro hk hc
          rcases List.mem_cons.1 hc with hc | hc
          · exact h hc.symm
          · exact hk hc
        · exact fun hk hc => hk (List.mem_cons_of_mem _ hc)

theorem assignKey_not_mem (k : String) (v : α) (l : List (String × α))
    (h : ¬ k ∈ keys l) : assignKey k v l = l ++ [(k, v)] := by
  induction l with
  | nil => rfl
  | cons e rest ih =>
      rw [keys_cons] at h
      have h1 : ¬ e.1 = k := fun he => h (he ▸ List.mem_cons_self _ _)
      have h2 : ¬ k ∈ keys rest := fun hk => h (List.mem_cons_of_mem _ hk)
      simp [assignKey, h1, ih h2]

theorem deleteKey_append_left (k : String) (l1 l2 : List (String × α))
    (h : ¬ k ∈ keys l1) : deleteKey k (l1 ++ l2) = l1 ++ deleteKey k l2 := by
  induction l1 with
  | nil => rfl
  | cons e rest ih =>
      rw [keys_cons] at h
      have h1 : ¬ e.1 = k := fun he => h (he ▸ List.mem_cons_self _ _)
      have h2 : ¬ k ∈ keys rest := fun hk => h (List.mem_cons_of_mem _ hk)
      simp [deleteKey, h1, ih h2]

theorem lookupKey_some_split (k : String) (v : α) (l : List (String × α))
    (h : lookupKey k l = some v) :
    ∃ l1 l2, l = l1 ++ (k, v) :: l2 ∧ ¬ k ∈ keys l1 := by
  induction l with
  | nil => simp [lookupKey] at h
  | cons e rest ih =>
      by_cases he : e.1 = k
      · rw [lookupKey, if_pos he] at h
        refine ⟨[], rest, ?_, by simp [keys]⟩
        obtain ⟨k', v'⟩ := e
        obtain rfl : k' = k := he
        obtain rfl : v' = v := Option.some.inj h
        rfl
      · rw [lookupKey, if_neg he] at h
        obtain ⟨l1, l2, hl, hk⟩ := ih h
        exact ⟨e :: l1, l2, by rw [hl]; rfl,
          by rw [keys_cons]; intro hc; rcases List.mem_cons.1 hc with hc | hc
             · exact he (hc.symm : e.1 = k)
             · exact hk hc⟩

theorem keys_map_value (f : String × α → β) (l : List (String × α)) :
    keys (l.map fun e => (e.1, f e)) = keys l := by
  induction l with
  | nil => rfl
  | cons e rest ih => simp [keys_cons, ih]

theorem lookupKey_map_pair (k : String) (f : String × α → β) (l : List (String × α)) :
    lookupKey k (l.map fun e => (e.1, f e)) = (lookupKey k l).map fun v => f (k, v) := by
  induction l with
  | nil => rfl
  | cons e rest ih =>
      by_cases h : e.1 = k
      · obtain ⟨k', v'⟩ := e
        obtain rfl : k' = k := h
        simp [lookupKey]
      · simp [lookupKey, h, ih]

theorem lookupKey_deleteKey_ne (s k : String) (l : List (String × α)) (h : ¬ s = k) :
    lookupKey s (deleteKey k l) = lookupKey s l := by
  induction l with
  | nil => rfl
  | cons e rest ih =>
      by_cases he : e.1 = k
      · have hes : ¬ e.1 = s := fun hs => h (hs.symm.trans he)
        rw [deleteKey, if_pos he, lookupKey, if_neg hes]
      · by_cases hs : e.1 = s
        · rw [deleteKey, if_neg he, lookupKey, if_pos hs, lookupKey, if_pos hs]
        · rw [deleteKey, if_neg he, lookupKey, if_neg hs, lookupKey, if_neg hs, ih]

theorem keys_deleteKey_nodup (k : String) (l : List (String × α))
    (h : (keys l).Nodup) :
    keys (deleteKey k l) = (keys l).filter fun s => ¬ s = k := by
  induction l with
  | nil => rfl
  | cons e rest ih =>
      rw [keys_cons, List.nodup_cons] at h
      by_cases he : e.1 = k
      · rw [deleteKey, if_pos he, keys_cons, List.filter_cons, if_neg (by simp [he])]
        symm
        rw [List.filter_eq_self]
        intro s hs
        simp only [decide_eq_true_eq]
        exact fun hsk => h.1 (by rw [he, ← hsk]; exact hs)
      · rw [deleteKey, if_neg he, keys_cons, ih h.2, keys_cons, List.filter_cons]
        simp [he]

/-! ### Node-resolution lemmas and claims C5, C7, C8, C9 -/

theorem findNodeIdx_map_getD (nodes : List Node) (ref : String) :
    (findNodeIdx ref nodes).map (fun i => nodes.getD i defaultNode) =
      resolveNode ref nodes := by
  induction nodes with
  | nil => rfl
  | cons n rest ih =>
      by_cases h : n.id = ref ∨ n.name = ref
      · rw [findNodeIdx, if_pos h, resolveNode, if_pos h]; rfl
      · rw [findNodeIdx, if_neg h, resolveNode, if_neg h, ← ih, Option.map_map]
        cases findNodeIdx ref rest <;> rfl

theorem findNodeIdx_lt_length (nodes : List Node) (ref : String) (i : Nat)
    (h : findNodeIdx ref nodes = some i) : i < nodes.length := by
  induction nodes generalizing i with
  | nil => cases h
  | cons n rest ih =>
      by_cases hm : n.id = ref ∨ n.name = ref
      · rw [findNodeIdx, if_pos hm] at h
        obtain rfl : 0 = i := Option.some.inj h
        simp
      · rw [findNodeIdx, if_neg hm] at h
        cases hj : findNodeIdx ref rest with
        | none => rw [hj] at h; cases h
        | some j =>
            rw [hj] at h
            obtain rfl : j + 1 = i := Option.some.inj h
            exact Nat.succ_lt_succ (ih j hj)

/-- C5 (amended): node resolution is a single first-match scan over
`id || name`: it returns `none` (`NotFoundError`) exactly when no node's
id or name equals the reference; a returned node matches the reference
and is preceded only by non-matching nodes (so when the reference equals
one node's id and another node's name, whichever comes first in the
document wins — id has no precedence); and the index-based resolution
used by `update_node` / `remove_node` agrees with it. -/
theorem resolveNode_first_match (nodes : List Node) (ref : String) :
    (resolveNode ref nodes = none ↔ ∀ n ∈ nodes, ¬ n.id = ref ∧ ¬ n.name = ref) ∧
    (∀ n, resolveNode ref nodes = some n →
      (n.id = ref ∨ n.name = ref) ∧
      ∃ l1 l2, nodes = l1 ++ n :: l2 ∧ ∀ m ∈ l1, ¬ m.id = ref ∧ ¬ m.name = ref) ∧
    (findNodeIdx ref nodes).map (fun i => nodes.getD i defaultNode) =
      resolveNode ref nodes := by
  refine ⟨?_, ?_, findNodeIdx_map_getD nodes ref⟩
  · induction nodes with
    | nil => simp [resolveNode]
    | cons n rest ih =>
        by_cases h : n.id = ref ∨ n.name = ref
        · rw [resolveNode, if_pos h]
          constructor
          · intro hc; cases hc
          · intro hall
            rcases h with h | h
            · exact absurd h (hall n (List.mem_cons_self _ _)).1
            · exact absurd h (hall n (List.mem_cons_self _ _)).2
        · rw [resolveNode, if_neg h, ih]
          constructor
          · intro hall m hm
            rcases List.mem_cons.1 hm with rfl | hm
            · exact (not_or.1 h)
            · exact hall m hm
          · exact fun hall m hm => hall m (List.mem_cons_of_mem _ hm)
  · induction nodes with
    | nil => intro n hc; cases hc
    | cons m rest ih =>
        intro n hn
        by_cases h : m.id = ref ∨ m.name = ref
        · rw [resolveNode, if_pos h] at hn
          obtain rfl : m = n := Option.some.inj hn
          exact ⟨h, [], rest, rfl, by intro x hx; cases hx⟩
        · rw [resolveNode, if_neg h] at hn
          obtain ⟨hm, l1, l2, hl, hall⟩ := ih n hn
          refine ⟨hm, m :: l1, l2, by rw [hl]; rfl, ?_⟩
          intro x hx
          rcases List.mem_cons.1 hx with rfl | hx
          · exact not_or.1 h
          · exact hall x hx

/-- C5 witness: the characterization applied to a concrete one-node
document resolved by id. -/
theorem resolveNode_first_match_witness :
    (cNodeA.id = "1" ∨ cNodeA.name = "1") ∧
    ∃ l1 l2, [cNodeA] = l1 ++ cNodeA :: l2 ∧
      ∀ m ∈ l1, ¬ m.id = "1" ∧ ¬ m.name = "1" :=
  (resolveNode_first_match [cNodeA] "1").2.1 cNodeA (by decide)

theorem le_foldl_maxNodeX (l : List Node) (a : Int) :
    a ≤ l.foldl (fun m n => max m (nodeX n)) a := by
  induction l generalizing a with
  | nil => exact le_refl a
  | cons n rest ih =>
      exact le_trans (le_max_left a (nodeX n)) (ih (max a (nodeX n)))

theorem maxNodeX_nonneg (l : List Node) : 0 ≤ maxNodeX l :=
  le_foldl_maxNodeX l 0

theorem maxNodeX_append_one (l : List Node) (n : Node) :
    maxNodeX (l ++ [n]) = max (maxNodeX l) (nodeX n) := by
  unfold maxNodeX
  rw [List.foldl_append]
  rfl

theorem addNode_ok_auto (w : Workflow) (name ty newId : String)
    (w' : Workflow) (a : Node)
    (h : addNode w name ty none none newId = .ok (w', a)) :
    w' = { w with nodes := w.nodes ++ [a] } ∧
    a = { id := newId, name := name, type := ty, typeVersion := 1,
          position := some [maxNodeX w.nodes + 300, 100], parameters := [] } := by
  unfold addNode at h
  split at h
  · exact absurd h (by simp)
  · rw [Except.ok.injEq, Prod.mk.injEq] at h
    obtain ⟨hw, ha⟩ := h
    subst ha
    exact ⟨hw.symm, rfl⟩

/-- C7: `add_node` with no supplied position places the node at
`[maxNodeX + 300, 100]`; chaining three auto-positioned adds yields
x-coordinates `maxX+300`, `maxX+600`, `maxX+900` — strictly increasing,
each exactly 300 greater than the maximum x of the document it was added
to. -/
theorem addNode_auto_position_monotone
    (w : Workflow) (name1 name2 name3 ty id1 id2 id3 : String)
    (w1 w2 w3 : Workflow) (a b c : Node)
    (h1 : addNode w name1 ty none none id1 = .ok (w1, a))
    (h2 : addNode w1 name2 ty none none id2 = .ok (w2, b))
    (h3 : addNode w2 name3 ty none none id3 = .ok (w3, c)) :
    a.position = some [maxNodeX w.nodes + 300, 100] ∧
    b.position = some [maxNodeX w.nodes + 600, 100] ∧
    c.position = some [maxNodeX w.nodes + 900, 100] ∧
    nodeX a = maxNodeX w.nodes + 300 ∧
    nodeX b = maxNodeX w1.nodes + 300 ∧
    nodeX c = maxNodeX w2.nodes + 300 ∧
    nodeX a < nodeX b ∧ nodeX b < nodeX c := by
  obtain ⟨hw1, ha⟩ := addNode_ok_auto _ _ _ _ _ _ h1
  obtain ⟨hw2, hb⟩ := addNode_ok_auto _ _ _ _ _ _ h2
  obtain ⟨hw3, hc⟩ := addNode_ok_auto _ _ _ _ _ _ h3
  have hxa : nodeX a = maxNodeX w.nodes + 300 := by rw [ha]; rfl
  have m1 : maxNodeX w1.nodes = maxNodeX w.nodes + 300 := by
    rw [hw1]
    show maxNodeX (w.nodes ++ [a]) = _
    rw [maxNodeX_append_one, hxa]
    exact max_eq_right (le_add_of_nonneg_right (by norm_num))
  have hxb : nodeX b = maxNodeX w1.nodes + 300 := by rw [hb]; rfl
  have m2 : maxNodeX w2.nodes = maxNodeX w1.nodes + 300 := by
    rw [hw2]
    show maxNodeX (w1.nodes ++ [b]) = _
    rw [maxNodeX_append_one, hxb]
    exact max_eq_right (le_add_of_nonneg_right (by norm_num))
  have hxc : nodeX c = maxNodeX w2.nodes + 300 := by rw [hc]; rfl
  have e600 : maxNodeX w.nodes + 300 + 300 = maxNodeX w.nodes + 600 := by ring
  have e900 : maxNodeX w.nodes + 300 + 300 + 300 = maxNodeX w.nodes + 900 := by ring
  refine ⟨by rw [ha], ?_, ?_, hxa, hxb, hxc, ?_, ?_⟩
  · rw [hb, m1, e600]
  · rw [hc, m2, m1, e900]
  · rw [hxa, hxb, m1]; linarith
  · rw [hxb, hxc, m2]; linarith

/-- First node added to the empty document by the auto-position witness. -/
def cAddA : Node :=
  { id := "i1", name := "p", type := "t", typeVersion := 1,
    position := some [300, 100], parameters := [] }

/-- Second node added by the auto-position witness. -/
def cAddB : Node :=
  { id := "i2", name := "q", type := "t", typeVersion := 1,
    position := some [600, 100], parameters := [] }

/-- Third node added by the auto-position witness. -/
def cAddC : Node :=
  { id := "i3", name := "r", type := "t", typeVersion := 1,
    position := some [900, 100], parameters := [] }

def cAddW1 : Workflow := { name := "w", nodes := [cAddA], connections := [] }

def cAddW2 : Workflow := { name := "w", nodes := [cAddA, cAddB], connections := [] }

def cAddW3 : Workflow :=
  { name := "w", nodes := [cAddA, cAddB, cAddC], connections := [] }

/-- C7 witness: three auto-positioned adds starting from the empty
document land at x = 300, 600, 900. -/
theorem addNode_auto_position_monotone_witness :
    cAddA.position = some [300, 100] ∧
    cAddB.position = some [600, 100] ∧
    cAddC.position = some [900, 100] ∧
    nodeX cAddA = 300 ∧ nodeX cAddB = 600 ∧ nodeX cAddC = 900 ∧
    nodeX cAddA < nodeX cAddB ∧ nodeX cAddB < nodeX cAddC :=
  addNode_auto_position_monotone cDocEmpty "p" "q" "r" "t" "i1" "i2" "i3"
    cAddW1 cAddW2 cAddW3 cAddA cAddB cAddC (by rfl) (by rfl) (by rfl)

/-- C8 (amended): when no fetched record has `startedAt` at or after the
cutoff `now − days` (the code's one-sided window), the aggregator returns
`totalExecutions = 0`, zero in every category, and the fixed
`successRate` default `0` — it is a total function, so no exception and
no division by zero can occur. -/
theorem stats_empty_window_default (recs : List ExecutionRecord) (now days : Int)
    (h : ∀ r ∈ recs, ¬ now - days * msPerDay ≤ r.startedAt) :
    getWorkflowStats recs now days =
      { totalExecutions := 0, successful := 0, failed := 0, running := 0,
        successRate := 0 } := by
  have hrec : recentExecutions recs now days = [] := by
    rw [recentExecutions, List.filter_eq_nil_iff]
    intro r hr
    simpa using h r hr
  simp [getWorkflowStats, hrec]

/-- C8 witness: a single record far before the cutoff yields the all-zero
statistics. -/
theorem stats_empty_window_default_witness :
    getWorkflowStats [cOldRec] 0 1 =
      { totalExecutions := 0, successful := 0, failed := 0, running := 0,
        successRate := 0 } :=
  stats_empty_window_default [cOldRec] 0 1 (by decide)

/-- C9 (amended): the aggregator's per-record classification — a filtered
record is successful iff its status is `success` or (`finished = true`
and `stoppedAt` absent), regardless of whether `status` is present;
failed iff status is `error` or `failed`; running iff status is `running`
or `waiting`; the categories can overlap on a record with a present
status; and the reported counts are exactly the sizes of these filtered
classes. -/
theorem stats_classification_overlap :
    (∀ r : ExecutionRecord,
      (isSuccessful r = true ↔
        r.status = some "success" ∨ (r.finished = some true ∧ r.stoppedAt = none)) ∧
      (isFailed r = true ↔ r.status = some "error" ∨ r.status = some "failed") ∧
      (isRunning r = true ↔ r.status = some "running" ∨ r.status = some "waiting")) ∧
    (∃ r : ExecutionRecord, ¬ r.status = none ∧ isSuccessful r = true ∧
      isFailed r = true) ∧
    (∀ recs : List ExecutionRecord, ∀ now days : Int,
      (getWorkflowStats recs now days).successful =
        ((recentExecutions recs now days).filter isSuccessful).length ∧
      (getWorkflowStats recs now days).failed =
        ((recentExecutions recs now days).filter isFailed).length ∧
      (getWorkflowStats recs now days).running =
        ((recentExecutions recs now days).filter isRunning).length) := by
  refine ⟨?_, ⟨cErrRec, by decide⟩, ?_⟩
  · intro r
    refine ⟨?_, ?_, ?_⟩ <;> simp [isSuccessful, isFailed, isRunning]
  · intro recs now days
    exact ⟨rfl, rfl, rfl⟩

/-! ### Edge-enumeration lemmas -/

theorem slotsEdges_src_ty (src ty : String) (i : Nat) (slots : Slots) :
    ∀ e ∈ slotsEdges src ty i slots, e.src = src ∧ e.slotType = ty := by
  induction slots generalizing i with
  | nil => intro e he; cases he
  | cons slot rest ih =>
      intro e he
      rcases List.mem_append.1 he with he | he
      · obtain ⟨t, _, rfl⟩ := List.mem_map.1 he
        exact ⟨rfl, rfl⟩
      · exact ih (i + 1) e he

theorem filter_main_slotsEdges (src ty : String) (i : Nat) (slots : Slots) :
    (slotsEdges src ty i slots).filter (fun e => e.slotType = "main") =
      if ty = "main" then slotsEdges src ty i slots else [] := by
  by_cases h : ty = "main"
  · rw [if_pos h, List.filter_eq_self]
    intro e he
    simpa using (slotsEdges_src_ty src ty i slots e he).2.trans h
  · rw [if_neg h, List.filter_eq_nil_iff]
    intro e he
    simp only [decide_eq_true_eq]
    exact fun hc => h ((slotsEdges_src_ty src ty i slots e he).2.symm.trans hc)

theorem slotMapEdges_cons (src : String) (e : String × Slots) (sm : SlotMap) :
    slotMapEdges src (e :: sm) = slotsEdges src e.1 0 e.2 ++ slotMapEdges src sm := by
  simp [slotMapEdges]

theorem mainEdges_cons (e : String × SlotMap) (conns : Connections) :
    mainEdges (e :: conns) =
      (slotMapEdges e.1 e.2).filter (fun x => x.slotType = "main") ++ mainEdges conns := by
  simp [mainEdges, connectionEdges, List.filter_append]

theorem mainEdges_append (l1 l2 : Connections) :
    mainEdges (l1 ++ l2) = mainEdges l1 ++ mainEdges l2 := by
  simp [mainEdges, connectionEdges, List.filter_append]

theorem slotsEdges_map_targets (src ty : String) (f : Target → Target) (i : Nat)
    (slots : Slots) :
    slotsEdges src ty i (slots.map fun slot => slot.map f) =
      (slotsEdges src ty i slots).map fun e => { e with target := f e.target } := by
  induction slots generalizing i with
  | nil => rfl
  | cons slot rest ih =>
      simp only [List.map_cons, slotsEdges, List.map_append, List.map_map, ih (i + 1)]
      rfl

theorem map_filter_slot (src ty : String) (i : Nat) (p : Target → Bool)
    (slot : List Target) :
    (slot.filter p).map (fun t => (⟨src, ty, i, t⟩ : Edge)) =
      (slot.map fun t => (⟨src, ty, i, t⟩ : Edge)).filter fun e => p e.target := by
  induction slot with
  | nil => rfl
  | cons t rest ih =>
      by_cases h : p t
      · simp [List.filter_cons, h, ih]
      · simp [List.filter_cons, h, ih]

theorem slotsEdges_filter_targets (src ty : String) (p : Target → Bool) (i : Nat)
    (slots : Slots) :
    slotsEdges src ty i (slots.map fun slot => slot.filter p) =
      (slotsEdges src ty i slots).filter fun e => p e.target := by
  induction slots generalizing i with
  | nil => rfl
  | cons slot rest ih =>
      simp only [List.map_cons, slotsEdges, List.filter_append, ih (i + 1),
        map_filter_slot]

theorem slotsEdges_set_src (s s' ty : String) (i : Nat) (slots : Slots) :
    slotsEdges s' ty i slots =
      (slotsEdges s ty i slots).map fun e => { e with src := s' } := by
  induction slots generalizing i with
  | nil => rfl
  | cons slot rest ih =>
      simp only [slotsEdges, List.map_append, List.map_map, ih (i + 1)]
      rfl

theorem slotMapEdges_set_src (s s' : String) (sm : SlotMap) :
    slotMapEdges s' sm = (slotMapEdges s sm).map fun e => { e with src := s' } := by
  induction sm with
  | nil => rfl
  | cons e rest ih =>
      rw [slotMapEdges_cons, slotMapEdges_cons, List.map_append,
        slotsEdges_set_src s s', ih]

theorem mem_slotMapEdges_src (src : String) (sm : SlotMap) (e : Edge)
    (he : e ∈ slotMapEdges src sm) : e.src = src := by
  induction sm with
  | nil => cases he
  | cons ent rest ih =>
      rw [slotMapEdges_cons] at he
      rcases List.mem_append.1 he with he | he
      · exact (slotsEdges_src_ty _ _ _ _ e he).1
      · exact ih he

theorem mem_mainEdges_src (conns : Connections) (e : Edge)
    (he : e ∈ mainEdges conns) : e.src ∈ keys conns := by
  induction conns with
  | nil => cases he
  | cons ent rest ih =>
      rw [mainEdges_cons] at he
      rcases List.mem_append.1 he with he | he
      · rw [keys_cons, mem_slotMapEdges_src ent.1 ent.2 e (List.mem_filter.1 he).1]
        exact List.mem_cons_self _ _
      · exact List.mem_cons_of_mem _ (ih he)

theorem slotMapEdges_rename_filter (src o n : String) (sm : SlotMap) :
    (slotMapEdges src (renameTargetsMain o n sm)).filter
        (fun e => e.slotType = "main") =
      ((slotMapEdges src sm).filter fun e => e.slotType = "main").map
        (renameEdgeTarget o n) := by
  have hfun : (fun e : Edge =>
      ({ e with target := if e.target.node = o then { e.target with node := n }
                          else e.target } : Edge)) = renameEdgeTarget o n := rfl
  induction sm with
  | nil => rfl
  | cons ent rest ih =>
      have hcons : renameTargetsMain o n (ent :: rest) =
          (if ent.1 = "main" then
            (ent.1, ent.2.map fun slot =>
              slot.map fun c => if c.node = o then { c with node := n } else c)
           else ent) :: renameTargetsMain o n rest := rfl
      rw [hcons]
      by_cases h : ent.1 = "main"
      · rw [if_pos h, slotMapEdges_cons, slotMapEdges_cons, List.filter_append,
          List.filter_append, List.map_append, ih]
        congr 1
        rw [filter_main_slotsEdges, filter_main_slotsEdges, if_pos h, if_pos h,
          slotsEdges_map_targets, hfun]
      · rw [if_neg h, slotMapEdges_cons, slotMapEdges_cons, List.filter_append,
          List.filter_append, List.map_append, ih]
        congr 1
        rw [filter_main_slotsEdges, if_neg h]
        rfl

theorem mainEdges_rewriteMainTargets (o n : String) (conns : Connections) :
    mainEdges (rewriteMainTargets o n conns) =
      (mainEdges conns).map (renameEdgeTarget o n) := by
  induction conns with
  | nil => rfl
  | cons ent rest ih =>
      have hcons : rewriteMainTargets o n (ent :: rest) =
          (ent.1, renameTargetsMain o n ent.2) :: rewriteMainTargets o n rest := rfl
      rw [hcons, mainEdges_cons, mainEdges_cons, List.map_append, ih,
        slotMapEdges_rename_filter]

theorem slotMapEdges_remove_filter (src x : String) (sm : SlotMap) :
    (slotMapEdges src (removeTargetsMain x sm)).filter
        (fun e => e.slotType = "main") =
      ((slotMapEdges src sm).filter fun e => e.slotType = "main").filter
        (fun e => ¬ e.target.node = x) := by
  induction sm with
  | nil => rfl
  | cons ent rest ih =>
      have hcons : removeTargetsMain x (ent :: rest) =
          (if ent.1 = "main" then
            (ent.1, ent.2.map fun slot => slot.filter fun c => ¬ c.node = x)
           else ent) :: removeTargetsMain x rest := rfl
      rw [hcons]
      by_cases h : ent.1 = "main"
      · rw [if_pos h, slotMapEdges_cons, slotMapEdges_cons, List.filter_append,
          List.filter_append, List.filter_append, ih]
        congr 1
        rw [filter_main_slotsEdges, filter_main_slotsEdges, if_pos h, if_pos h,
          slotsEdges_filter_targets]
      · rw [if_neg h, slotMapEdges_cons, slotMapEdges_cons, List.filter_append,
          List.filter_append, List.filter_append, ih]
        congr 1
        rw [filter_main_slotsEdges, if_neg h]
        rfl

theorem mainEdges_filterMainTargets (x : String) (conns : Connections) :
    mainEdges (filterMainTargets x conns) =
      (mainEdges conns).filter fun e => ¬ e.target.node = x := by
  induction conns with
  | nil => rfl
  | cons ent rest ih =>
      have hcons : filterMainTargets x (ent :: rest) =
          (ent.1, removeTargetsMain x ent.2) :: filterMainTargets x rest := rfl
      rw [hcons, mainEdges_cons, mainEdges_cons, List.filter_append, ih,
        slotMapEdges_remove_filter]

theorem keys_rewriteMainTargets (o n : String) (conns : Connections) :
    keys (rewriteMainTargets o n conns) = keys conns :=
  keys_map_value _ conns

theorem keys_filterMainTargets (x : String) (conns : Connections) :
    keys (filterMainTargets x conns) = keys conns :=
  keys_map_value _ conns

theorem map_eq_of_mem (f g : α → β) (l : List α) (h : ∀ a ∈ l, f a = g a) :
    l.map f = l.map g := by
  induction l with
  | nil => rfl
  | cons a rest ih =>
      rw [List.map_cons, List.map_cons, h a (List.mem_cons_self _ _),
        ih fun x hx => h x (List.mem_cons_of_mem _ hx)]

theorem filter_main_map_set_src (s' : String) (l : List Edge) :
    ((l.map fun e => { e with src := s' }).filter fun e => e.slotType = "main") =
      (l.filter fun e => e.slotType = "main").map fun e => { e with src := s' } := by
  induction l with
  | nil => rfl
  | cons e rest ih =>
      by_cases h : e.slotType = "main"
      · simp [List.filter_cons, h, ih]
      · simp [List.filter_cons, h, ih]

/-- Effect of the `update_node` rename pass on a connection map with
duplicate-free keys when the new name is not yet a source key: the old
name disappears from the keys, no `main` target carries the old name any
more, and the `main` edges are a permutation of the original `main`
edges with the old name substituted by the new one at both endpoints. -/
theorem renameConnections_spec (o n : String) (conns : Connections)
    (hnodup : (keys conns).Nodup) (hkey : ¬ n ∈ keys conns) (hne : ¬ n = o) :
    ¬ o ∈ keys (renameConnections o n conns) ∧
    (∀ e ∈ mainEdges (renameConnections o n conns), ¬ e.target.node = o) ∧
    (mainEdges (renameConnections o n conns)).Perm
      ((mainEdges conns).map (renameEdge o n)) := by
  have hnoold : ∀ l : Connections, ∀ e ∈ mainEdges (rewriteMainTargets o n l),
      ¬ e.target.node = o := by
    intro l e he
    rw [mainEdges_rewriteMainTargets] at he
    obtain ⟨e', _, rfl⟩ := List.mem_map.1 he
    by_cases h : e'.target.node = o
    · simpa [renameEdgeTarget, h] using hne
    · simp [renameEdgeTarget, h]
  cases hlook : lookupKey o conns with
  | none =>
      have hko : ¬ o ∈ keys conns := (lookupKey_eq_none_iff o conns).1 hlook
      have hmoved : renameConnections o n conns = rewriteMainTargets o n conns := by
        simp only [renameConnections, hlook]
      refine ⟨?_, ?_, ?_⟩
      · rw [hmoved, keys_rewriteMainTargets]; exact hko
      · rw [hmoved]; exact hnoold conns
      · rw [hmoved, mainEdges_rewriteMainTargets]
        have heq : (mainEdges conns).map (renameEdgeTarget o n) =
            (mainEdges conns).map (renameEdge o n) := by
          apply map_eq_of_mem
          intro e he
          have hsrc : ¬ e.src = o := fun hc => hko (hc ▸ mem_mainEdges_src conns e he)
          simp [renameEdge, renameEdgeTarget, hsrc]
        rw [heq]
  | some sm =>
      obtain ⟨l1, l2, hsplit, hl1⟩ := lookupKey_some_split o sm conns hlook
      subst hsplit
      have hk : keys (l1 ++ (o, sm) :: l2) = keys l1 ++ o :: keys l2 := by
        rw [keys_append, keys_cons]
      have ho2 : ¬ o ∈ keys l2 := by
        rw [hk] at hnodup
        exact (List.nodup_cons.1 (List.Nodup.of_append_right hnodup)).1
      have hmoved0 : renameConnections o n (l1 ++ (o, sm) :: l2) =
          rewriteMainTargets o n (deleteKey o (assignKey n sm (l1 ++ (o, sm) :: l2))) := by
        simp only [renameConnections, hlook]
      have hmove : deleteKey o (assignKey n sm (l1 ++ (o, sm) :: l2)) =
          l1 ++ (l2 ++ [(n, sm)]) := by
        rw [assignKey_not_mem n sm _ hkey, List.append_assoc,
          deleteKey_append_left o l1 _ hl1]
        congr 1
        simp [deleteKey]
      have hfin : renameConnections o n (l1 ++ (o, sm) :: l2) =
          rewriteMainTargets o n (l1 ++ (l2 ++ [(n, sm)])) := by
        rw [hmoved0, hmove]
      refine ⟨?_, ?_, ?_⟩
      · rw [hfin, keys_rewriteMainTargets, keys_append, keys_append]
        intro hc
        rcases List.mem_append.1 hc with hc | hc
        · exact hl1 hc
        · rcases List.mem_append.1 hc with hc | hc
          · exact ho2 hc
          · rw [keys_cons] at hc
            rcases List.mem_cons.1 hc with hc | hc
            · exact hne hc.symm
            · cases hc
      · intro e he
        rw [hfin] at he
        exact hnoold _ e he
      · have eA : (mainEdges l1).map (renameEdgeTarget o n) =
            (mainEdges l1).map (renameEdge o n) := by
          apply map_eq_of_mem
          intro e he
          have hsrc : ¬ e.src = o := fun hc => hl1 (hc ▸ mem_mainEdges_src l1 e he)
          simp [renameEdge, renameEdgeTarget, hsrc]
        have eB : (mainEdges l2).map (renameEdgeTarget o n) =
            (mainEdges l2).map (renameEdge o n) := by
          apply map_eq_of_mem
          intro e he
          have hsrc : ¬ e.src = o := fun hc => ho2 (hc ▸ mem_mainEdges_src l2 e he)
          simp [renameEdge, renameEdgeTarget, hsrc]
        have eC : (mainEdges [(n, sm)]).map (renameEdgeTarget o n) =
            ((slotMapEdges o sm).filter fun x => x.slotType = "main").map
              (renameEdge o n) := by
          rw [mainEdges_cons]
          have hnil : mainEdges ([] : Connections) = [] := rfl
          rw [hnil, List.append_nil]
          show ((slotMapEdges n sm).filter fun x => x.slotType = "main").map
              (renameEdgeTarget o n) = _
          rw [slotMapEdges_set_src o n, filter_main_map_set_src, List.map_map]
          apply map_eq_of_mem
          intro e he
          have hsrc : e.src = o :=
            mem_slotMapEdges_src o sm e (List.mem_filter.1 he).1
          simp [renameEdge, renameEdgeTarget, Function.comp, hsrc]
        have hL : mainEdges (rewriteMainTargets o n (l1 ++ (l2 ++ [(n, sm)]))) =
            (mainEdges l1).map (renameEdge o n) ++
              ((mainEdges l2).map (renameEdge o n) ++
                ((slotMapEdges o sm).filter fun x => x.slotType = "main").map
                  (renameEdge o n)) := by
          rw [mainEdges_rewriteMainTargets, mainEdges_append, mainEdges_append,
            List.map_append, List.map_append, eA, eB, eC]
        have hR : (mainEdges (l1 ++ (o, sm) :: l2)).map (renameEdge o n) =
            (mainEdges l1).map (renameEdge o n) ++
              (((slotMapEdges o sm).filter fun x => x.slotType = "main").map
                  (renameEdge o n) ++
                (mainEdges l2).map (renameEdge o n)) := by
          rw [mainEdges_append, mainEdges_cons, List.map_append, List.map_append]
        rw [hfin, hL, hR]
        exact List.Perm.append_left _ List.perm_append_comm

/-- Shape of a successful `update_node` call that patches only the name:
the resulting document carries the renamed connection map. -/
theorem updateNode_rename_ok (w : Workflow) (ref newName : String)
    (node : Node) (res : Workflow × Node)
    (hres : resolveNode ref w.nodes = some node)
    (hok : updateNode w ref { name := some newName } = .ok res)
    (hne : ¬ newName = node.name) :
    res.1.connections = renameConnections node.name newName w.connections := by
  cases hidx : findNodeIdx ref w.nodes with
  | none =>
      have h := findNodeIdx_map_getD w.nodes ref
      rw [hidx, hres] at h
      cases h
  | some i =>
      have hgetD : w.nodes.getD i defaultNode = node := by
        have h := findNodeIdx_map_getD w.nodes ref
        rw [hidx, hres] at h
        exact Option.some.inj h
      simp only [updateNode, hidx, hgetD] at hok
      rw [if_pos hne] at hok
      have hpair := Except.ok.inj hok
      rw [← hpair]

/-- C1 (amended): renaming a resolved node from X to a fresh name Y
(`Y ≠ X`, `Y` not already a source key, keys duplicate-free) removes `X`
from the connection keys, leaves no `main`-slot Target named `X`, and
permutes the `main`-slot edge multiset into the original one with `X`
substituted by `Y` at both endpoints; Targets under other slot types are
not rewritten (see the counterexample). -/
theorem updateNode_rename_main_edges
    (w : Workflow) (ref newName : String) (node : Node) (res : Workflow × Node)
    (hres : resolveNode ref w.nodes = some node)
    (hok : updateNode w ref { name := some newName } = .ok res)
    (hnodup : (keys w.connections).Nodup)
    (hkey : ¬ newName ∈ keys w.connections)
    (hne : ¬ newName = node.name) :
    ¬ node.name ∈ keys res.1.connections ∧
    (∀ e ∈ mainEdges res.1.connections, ¬ e.target.node = node.name) ∧
    (mainEdges res.1.connections).Perm
      ((mainEdges w.connections).map (renameEdge node.name newName)) := by
  rw [updateNode_rename_ok w ref newName node res hres hok hne]
  exact renameConnections_spec node.name newName w.connections hnodup hkey hne

/-- C1 witness: renaming `X` to `Y` in `cDocMain` (mutual `main` edges
with `Z`). -/
theorem updateNode_rename_main_edges_witness :
    ¬ "X" ∈ keys cRenamedDoc.connections ∧
    (∀ e ∈ mainEdges cRenamedDoc.connections, ¬ e.target.node = "X") ∧
    (mainEdges cRenamedDoc.connections).Perm
      ((mainEdges cDocMain.connections).map (renameEdge "X" "Y")) :=
  updateNode_rename_main_edges cDocMain "1" "Y" cNodeX
    (cRenamedDoc, { cNodeX with name := "Y" })
    (by decide) (by rfl) (by decide) (by decide) (by decide)

theorem mainEdges_deleteKey (k : String) (conns : Connections)
    (hnodup : (keys conns).Nodup) :
    mainEdges (deleteKey k conns) = (mainEdges conns).filter fun e => ¬ e.src = k := by
  induction conns with
  | nil => rfl
  | cons ent rest ih =>
      rw [keys_cons, List.nodup_cons] at hnodup
      by_cases h : ent.1 = k
      · rw [mainEdges_cons, List.filter_append]
        have h1 : (((slotMapEdges ent.1 ent.2).filter fun x =>
            x.slotType = "main").filter fun e => ¬ e.src = k) = [] := by
          rw [List.filter_eq_nil_iff]
          intro e he
          have hsrc : e.src = ent.1 :=
            mem_slotMapEdges_src ent.1 ent.2 e (List.mem_filter.1 he).1
          simp [hsrc, h]
        have h2 : ((mainEdges rest).filter fun e => ¬ e.src = k) = mainEdges rest := by
          rw [List.filter_eq_self]
          intro e he
          have hm : e.src ∈ keys rest := mem_mainEdges_src rest e he
          simp only [decide_eq_true_eq]
          exact fun hc => hnodup.1 (h ▸ hc ▸ hm)
        rw [h1, h2]
        show mainEdges (deleteKey k (ent :: rest)) = mainEdges rest
        simp [deleteKey, h]
      · have hdel : deleteKey k (ent :: rest) = ent :: deleteKey k rest := by
          simp [deleteKey, h]
        rw [hdel, mainEdges_cons, mainEdges_cons, List.filter_append, ih hnodup.2]
        congr 1
        symm
        rw [List.filter_eq_self]
        intro e he
        have hsrc : e.src = ent.1 :=
          mem_slotMapEdges_src ent.1 ent.2 e (List.mem_filter.1 he).1
        simp [hsrc, h]

/-- Shape of a successful `remove_node` call. -/
theorem removeNode_ok (w : Workflow) (ref : String) (node : Node)
    (res : Workflow × Node)
    (hres : resolveNode ref w.nodes = some node)
    (hok : removeNode w ref = .ok res) :
    ∃ i, findNodeIdx ref w.nodes = some i ∧
      res = ({ w with
                nodes := w.nodes.eraseIdx i,
                connections := removeNodeConnections node.name w.connections }, node) := by
  cases hidx : findNodeIdx ref w.nodes with
  | none =>
      have h := findNodeIdx_map_getD w.nodes ref
      rw [hidx, hres] at h
      cases h
  | some i =>
      have hgetD : w.nodes.getD i defaultNode = node := by
        have h := findNodeIdx_map_getD w.nodes ref
        rw [hidx, hres] at h
        exact Option.some.inj h
      simp only [removeNode, hidx, hgetD] at hok
      exact ⟨i, rfl, (Except.ok.inj hok).symm⟩

/-- C4 (amended): removing a resolved node X removes exactly one node,
deletes X's own source entry, and filters X out of every remaining
source's `main` slots: afterwards no connections key equals X, no
`main`-slot Target equals X, and the remaining `main` edges are exactly
the original ones not incident to X.  Targets under other slot types may
still carry X (see the counterexample). -/
theorem removeNode_cascade_main
    (w : Workflow) (ref : String) (node : Node) (res : Workflow × Node)
    (hres : resolveNode ref w.nodes = some node)
    (hok : removeNode w ref = .ok res)
    (hnodup : (keys w.connections).Nodup) :
    res.2 = node ∧
    res.1.nodes.length + 1 = w.nodes.length ∧
    ¬ node.name ∈ keys res.1.connections ∧
    (∀ e ∈ mainEdges res.1.connections, ¬ e.target.node = node.name) ∧
    mainEdges res.1.connections =
      (((mainEdges w.connections).filter fun e => ¬ e.src = node.name).filter
        fun e => ¬ e.target.node = node.name) := by
  obtain ⟨i, hidx, hres'⟩ := removeNode_ok w ref node res hres hok
  have hlt : i < w.nodes.length := findNodeIdx_lt_length w.nodes ref i hidx
  subst hres'
  refine ⟨rfl, ?_, ?_, ?_, ?_⟩
  · show (w.nodes.eraseIdx i).length + 1 = w.nodes.length
    rw [List.length_eraseIdx_of_lt hlt]
    omega
  · show ¬ node.name ∈ keys (removeNodeConnections node.name w.connections)
    simp only [removeNodeConnections]
    rw [keys_filterMainTargets, keys_deleteKey_nodup _ _ hnodup]
    intro hc
    have := List.mem_filter.1 hc
    simp at this
  · intro e he
    have he' := he
    simp only [removeNodeConnections] at he'
    rw [mainEdges_filterMainTargets] at he'
    have := List.mem_filter.1 he'
    simpa using this.2
  · show mainEdges (removeNodeConnections node.name w.connections) = _
    simp only [removeNodeConnections]
    rw [mainEdges_filterMainTargets, mainEdges_deleteKey _ _ hnodup]

/-- C4 witness: removing `X` from `cDocRemove`. -/
theorem removeNode_cascade_main_witness :
    (cRemovedDoc, cNodeX).2 = cNodeX ∧
    cRemovedDoc.nodes.length + 1 = cDocRemove.nodes.length ∧
    ¬ "X" ∈ keys cRemovedDoc.connections ∧
    (∀ e ∈ mainEdges cRemovedDoc.connections, ¬ e.target.node = "X") ∧
    mainEdges cRemovedDoc.connections =
      (((mainEdges cDocRemove.connections).filter fun e => ¬ e.src = "X").filter
        fun e => ¬ e.target.node = "X") :=
  removeNode_cascade_main cDocRemove "1" cNodeX (cRemovedDoc, cNodeX)
    (by decide) (by rfl) (by decide)

theorem keys_removeTargetsMain (x : String) (sm : SlotMap) :
    keys (removeTargetsMain x sm) = keys sm := by
  induction sm with
  | nil => rfl
  | cons e rest ih =>
      have hcons : removeTargetsMain x (e :: rest) =
          (if e.1 = "main" then
            (e.1, e.2.map fun slot => slot.filter fun c => ¬ c.node = x)
           else e) :: removeTargetsMain x rest := rfl
      rw [hcons, keys_cons, keys_cons, ih]
      by_cases h : e.1 = "main"
      · rw [if_pos h]
      · rw [if_neg h]

theorem lookupKey_removeTargetsMain (ty x : String) (sm : SlotMap) :
    lookupKey ty (removeTargetsMain x sm) =
      (lookupKey ty sm).map fun slots =>
        if ty = "main" then slots.map fun slot => slot.filter fun c => ¬ c.node = x
        else slots := by
  induction sm with
  | nil => rfl
  | cons e rest ih =>
      have hcons : removeTargetsMain x (e :: rest) =
          (if e.1 = "main" then
            (e.1, e.2.map fun slot => slot.filter fun c => ¬ c.node = x)
           else e) :: removeTargetsMain x rest := rfl
      rw [hcons]
      by_cases hm : e.1 = "main"
      · rw [if_pos hm]
        by_cases ht : e.1 = ty
        · have hty : ty = "main" := ht ▸ hm
          simp [lookupKey, ht, hty]
        · simp [lookupKey, ht, ih]
      · rw [if_neg hm]
        by_cases ht : e.1 = ty
        · have hty : ¬ ty = "main" := fun hc => hm (ht.symm ▸ hc)
          simp [lookupKey, ht, hty]
        · simp [lookupKey, ht, ih]

/-- C10: `remove_node` deletes only the removed node's own source entry:
every other source key keeps its entry (its slot map merely has `main`
targets filtered), the key list is the original one minus the removed
name, and within each surviving entry every slot-type key and every slot
position survives with the same slot count — slots are emptied in place,
never pruned. -/
theorem removeNode_frame_other_sources
    (w : Workflow) (ref : String) (node : Node) (res : Workflow × Node)
    (hres : resolveNode ref w.nodes = some node)
    (hok : removeNode w ref = .ok res)
    (hnodup : (keys w.connections).Nodup) :
    (∀ src, ¬ src = node.name →
      lookupKey src res.1.connections =
        (lookupKey src w.connections).map (removeTargetsMain node.name)) ∧
    keys res.1.connections = (keys w.connections).filter (fun s => ¬ s = node.name) ∧
    (∀ src sm, ¬ src = node.name →
      lookupKey src w.connections = some sm →
      lookupKey src res.1.connections = some (removeTargetsMain node.name sm) ∧
      keys (removeTargetsMain node.name sm) = keys sm ∧
      ∀ ty slots, lookupKey ty sm = some slots →
        ∃ slots', lookupKey ty (removeTargetsMain node.name sm) = some slots' ∧
          slots'.length = slots.length) := by
  obtain ⟨i, hidx, hres'⟩ := removeNode_ok w ref node res hres hok
  subst hres'
  have hconn : ∀ src, ¬ src = node.name →
      lookupKey src (removeNodeConnections node.name w.connections) =
        (lookupKey src w.connections).map (removeTargetsMain node.name) := by
    intro src hsrc
    simp only [removeNodeConnections, filterMainTargets]
    rw [lookupKey_map_pair src (fun e => removeTargetsMain node.name e.2),
      lookupKey_deleteKey_ne src node.name _ hsrc]
  refine ⟨hconn, ?_, ?_⟩
  · show keys (removeNodeConnections node.name w.connections) = _
    simp only [removeNodeConnections]
    rw [keys_filterMainTargets, keys_deleteKey_nodup _ _ hnodup]
  · intro src sm hsrc hlk
    have h1 := hconn src hsrc
    rw [hlk] at h1
    refine ⟨h1, keys_removeTargetsMain node.name sm, ?_⟩
    intro ty slots hty
    by_cases hm : ty = "main"
    · refine ⟨slots.map fun slot => slot.filter fun c => ¬ c.node = node.name, ?_, ?_⟩
      · rw [lookupKey_removeTargetsMain ty node.name sm, hty]
        simp [hm]
      · rw [List.length_map]
    · refine ⟨slots, ?_, rfl⟩
      rw [lookupKey_removeTargetsMain ty node.name sm, hty]
      simp [hm]

/-- C10 witness: removing `X` from `cDocRemove` keeps source `Z`'s entry
with its two `main` slots (one emptied, one already empty). -/
theorem removeNode_frame_other_sources_witness :
    (∀ src, ¬ src = "X" →
      lookupKey src cRemovedDoc.connections =
        (lookupKey src cDocRemove.connections).map (removeTargetsMain "X")) ∧
    keys cRemovedDoc.connections = (keys cDocRemove.connections).filter
      (fun s => ¬ s = "X") ∧
    (∀ src sm, ¬ src = "X" →
      lookupKey src cDocRemove.connections = some sm →
      lookupKey src cRemovedDoc.connections = some (removeTargetsMain "X" sm) ∧
      keys (removeTargetsMain "X" sm) = keys sm ∧
      ∀ ty slots, lookupKey ty sm = some slots →
        ∃ slots', lookupKey ty (removeTargetsMain "X" sm) = some slots' ∧
          slots'.length = slots.length) :=
  removeNode_frame_other_sources cDocRemove "1" cNodeX (cRemovedDoc, cNodeX)
    (by decide) (by rfl) (by decide)

/-! ### Connection-validation lemmas and claim C3 -/

theorem firstInvalidInSlot_none_iff (names : List String) (slot : List Target) :
    firstInvalidInSlot names slot = none ↔ ∀ c ∈ slot, c.node ∈ names := by
  induction slot with
  | nil => simp [firstInvalidInSlot]
  | cons c cs ih =>
      by_cases h : c.node ∈ names
      · rw [firstInvalidInSlot, if_pos h, ih]
        constructor
        · intro hall x hx
          rcases List.mem_cons.1 hx with rfl | hx
          · exact h
          · exact hall x hx
        · exact fun hall x hx => hall x (List.mem_cons_of_mem _ hx)
      · rw [firstInvalidInSlot, if_neg h]
        constructor
        · intro hc; cases hc
        · intro hall; exact absurd (hall c (List.mem_cons_self _ _)) h

theorem firstInvalidInSlot_some (names : List String) (slot : List Target)
    (bad : String) (h : firstInvalidInSlot names slot = some bad) :
    ¬ bad ∈ names ∧ ∃ c ∈ slot, c.node = bad := by
  induction slot with
  | nil => cases h
  | cons c cs ih =>
      by_cases hc : c.node ∈ names
      · rw [firstInvalidInSlot, if_pos hc] at h
        obtain ⟨hbn, x, hx, hxb⟩ := ih h
        exact ⟨hbn, x, List.mem_cons_of_mem _ hx, hxb⟩
      · rw [firstInvalidInSlot, if_neg hc] at h
        obtain rfl : c.node = bad := Option.some.inj h
        exact ⟨hc, c, List.mem_cons_self _ _, rfl⟩

theorem firstInvalidTarget_none_iff (names : List String) (slots : Slots) :
    firstInvalidTarget names slots = none ↔
      ∀ slot ∈ slots, ∀ c ∈ slot, c.node ∈ names := by
  induction slots with
  | nil => simp [firstInvalidTarget]
  | cons slot rest ih =>
      cases hs : firstInvalidInSlot names slot with
      | some bad =>
          rw [firstInvalidTarget, hs]
          constructor
          · intro hc; cases hc
          · intro hall
            obtain ⟨hbn, c, hc, hcb⟩ := firstInvalidInSlot_some names slot bad hs
            exact absurd (hcb ▸ hall slot (List.mem_cons_self _ _) c hc) hbn
      | none =>
          rw [firstInvalidTarget, hs, ih]
          constructor
          · intro hall s hmem c hc
            rcases List.mem_cons.1 hmem with rfl | hmem
            · exact (firstInvalidInSlot_none_iff names s).1 hs c hc
            · exact hall s hmem c hc
          · exact fun hall s hmem c hc => hall s (List.mem_cons_of_mem _ hmem) c hc

theorem firstInvalidTarget_some (names : List String) (slots : Slots)
    (bad : String) (h : firstInvalidTarget names slots = some bad) :
    ¬ bad ∈ names ∧ ∃ slot ∈ slots, ∃ c ∈ slot, c.node = bad := by
  induction slots with
  | nil => cases h
  | cons slot rest ih =>
      cases hs : firstInvalidInSlot names slot with
      | some bad' =>
          simp only [firstInvalidTarget, hs] at h
          obtain rfl : bad' = bad := Option.some.inj h
          obtain ⟨hbn, c, hc, hcb⟩ := firstInvalidInSlot_some names slot _ hs
          exact ⟨hbn, slot, List.mem_cons_self _ _, c, hc, hcb⟩
      | none =>
          rw [firstInvalidTarget, hs] at h
          obtain ⟨hbn, s, hmem, c, hc, hcb⟩ := ih h
          exact ⟨hbn, s, List.mem_cons_of_mem _ hmem, c, hc, hcb⟩

theorem slotMapEdges_append (src : String) (s1 s2 : SlotMap) :
    slotMapEdges src (s1 ++ s2) = slotMapEdges src s1 ++ slotMapEdges src s2 := by
  simp [slotMapEdges]

theorem filter_main_slotMapEdges_nil (src : String) (sm : SlotMap)
    (h : ¬ "main" ∈ keys sm) :
    (slotMapEdges src sm).filter (fun e => e.slotType = "main") = [] := by
  induction sm with
  | nil => rfl
  | cons e rest ih =>
      rw [keys_cons] at h
      rw [slotMapEdges_cons, List.filter_append, filter_main_slotsEdges,
        if_neg (fun hc => h (List.mem_cons.2 (Or.inl hc.symm))),
        ih fun hm => h (List.mem_cons_of_mem _ hm)]
      rfl

theorem mainEdges_entry (src : String) (sm : SlotMap) (hnodup : (keys sm).Nodup) :
    (slotMapEdges src sm).filter (fun e => e.slotType = "main") =
      (match lookupKey "main" sm with
       | some slots => slotsEdges src "main" 0 slots
       | none => []) := by
  induction sm with
  | nil => rfl
  | cons e rest ih =>
      rw [keys_cons, List.nodup_cons] at hnodup
      rw [slotMapEdges_cons, List.filter_append, filter_main_slotsEdges]
      by_cases h : e.1 = "main"
      · rw [if_pos h, filter_main_slotMapEdges_nil src rest (h ▸ hnodup.1),
          List.append_nil, h]
        have hlk : lookupKey "main" (e :: rest) = some e.2 := by
          simp [lookupKey, h]
        rw [hlk]
      · rw [if_neg h, List.nil_append, ih hnodup.2]
        have hlk : lookupKey "main" (e :: rest) = lookupKey "main" rest := by
          simp [lookupKey, h]
        rw [hlk]

theorem mem_slotMapEdges_of_lookup (src ty : String) (sm : SlotMap) (slots : Slots)
    (hlk : lookupKey ty sm = some slots) (x : Edge)
    (hx : x ∈ slotsEdges src ty 0 slots) : x ∈ slotMapEdges src sm := by
  induction sm with
  | nil => cases hlk
  | cons e rest ih =>
      rw [slotMapEdges_cons]
      by_cases h : e.1 = ty
      · have hv : e.2 = slots := by
          rw [lookupKey, if_pos h] at hlk
          exact Option.some.inj hlk
        refine List.mem_append_left _ ?_
        rw [h, hv]
        exact hx
      · rw [lookupKey, if_neg h] at hlk
        exact List.mem_append_right _ (ih hlk)

theorem forall_target_slotsEdges (src ty : String) (P : Target → Prop) (i : Nat)
    (slots : Slots) :
    (∀ e ∈ slotsEdges src ty i slots, P e.target) ↔
      ∀ slot ∈ slots, ∀ c ∈ slot, P c := by
  induction slots generalizing i with
  | nil => simp [slotsEdges]
  | cons slot rest ih =>
      constructor
      · intro hall s hmem c hc
        rcases List.mem_cons.1 hmem with rfl | hmem
        · exact hall ⟨src, ty, i, c⟩
            (List.mem_append_left _ (List.mem_map.2 ⟨c, hc, rfl⟩))
        · exact (ih (i + 1)).1
            (fun e he => hall e (List.mem_append_right _ he)) s hmem c hc
      · intro hall e he
        rcases List.mem_append.1 he with he | he
        · obtain ⟨c, hc, rfl⟩ := List.mem_map.1 he
          exact hall slot (List.mem_cons_self _ _) c hc
        · exact (ih (i + 1)).2
            (fun s hmem c hc => hall s (List.mem_cons_of_mem _ hmem) c hc) e he

theorem target_mem_slotsEdges (src ty : String) (c : Target) :
    ∀ (i : Nat) (slots : Slots) (slot : List Target),
      slot ∈ slots → c ∈ slot → ∃ e ∈ slotsEdges src ty i slots, e.target = c := by
  intro i slots
  induction slots generalizing i with
  | nil => intro slot hmem _; cases hmem
  | cons s rest ih =>
      intro slot hmem hc
      rcases List.mem_cons.1 hmem with rfl | hmem
      · exact ⟨⟨src, ty, i, c⟩,
          List.mem_append_left _ (List.mem_map.2 ⟨c, hc, rfl⟩), rfl⟩
      · obtain ⟨e, he, hec⟩ := ih (i + 1) slot hmem hc
        exact ⟨e, List.mem_append_right _ he, hec⟩

/-- The validation pass accepts a map exactly when every source key and
every target stored under a `main` slot type names a known node (slot
maps with duplicate-free keys, as JS objects are). -/
theorem validateConnections_none_iff (names : List String) (m : Connections)
    (hwf : ∀ e ∈ m, (keys e.2).Nodup) :
    validateConnections names m = none ↔
      (∀ e ∈ m, e.1 ∈ names) ∧ ∀ ed ∈ mainEdges m, ed.target.node ∈ names := by
  induction m with
  | nil => simp [validateConnections, mainEdges, connectionEdges]
  | cons e rest ih =>
      have hwfe := hwf e (List.mem_cons_self _ _)
      have ih' := ih fun x hx => hwf x (List.mem_cons_of_mem _ hx)
      by_cases hsrc : e.1 ∈ names
      · rw [mainEdges_cons, mainEdges_entry e.1 e.2 hwfe]
        cases hlk : lookupKey "main" e.2 with
        | none =>
            simp only [validateConnections, if_neg (not_not_intro hsrc), hlk,
              List.nil_append]
            rw [ih']
            constructor
            · rintro ⟨h1, h2⟩
              refine ⟨fun x hx => ?_, h2⟩
              rcases List.mem_cons.1 hx with rfl | hx
              · exact hsrc
              · exact h1 x hx
            · rintro ⟨h1, h2⟩
              exact ⟨fun x hx => h1 x (List.mem_cons_of_mem _ hx), h2⟩
        | some slots =>
            simp only [validateConnections, if_neg (not_not_intro hsrc), hlk]
            cases hbad : firstInvalidTarget names slots with
            | some bad =>
                simp only [hbad]
                constructor
                · intro hc; cases hc
                · rintro ⟨_, h2⟩
                  obtain ⟨hbn, s, hmem, c, hc, hcb⟩ :=
                    firstInvalidTarget_some names slots bad hbad
                  obtain ⟨ed, hed, hedc⟩ :=
                    target_mem_slotsEdges e.1 "main" c 0 slots s hmem hc
                  exact absurd (hcb ▸ hedc ▸ h2 ed (List.mem_append_left _ hed)) hbn
            | none =>
                simp only [hbad]
                rw [ih']
                have htar : ∀ slot ∈ slots, ∀ c ∈ slot, c.node ∈ names :=
                  (firstInvalidTarget_none_iff names slots).1 hbad
                constructor
                · rintro ⟨h1, h2⟩
                  refine ⟨fun x hx => ?_, fun ed hed => ?_⟩
                  · rcases List.mem_cons.1 hx with rfl | hx
                    · exact hsrc
                    · exact h1 x hx
                  · rcases List.mem_append.1 hed with hed | hed
                    · exact (forall_target_slotsEdges e.1 "main"
                        (fun t => t.node ∈ names) 0 slots).2 htar ed hed
                    · exact h2 ed hed
                · rintro ⟨h1, h2⟩
                  exact ⟨fun x hx => h1 x (List.mem_cons_of_mem _ hx),
                    fun ed hed => h2 ed (List.mem_append_right _ hed)⟩
      · simp only [validateConnections, if_pos hsrc]
        constructor
        · intro hc; cases hc
        · rintro ⟨h1, _⟩
          exact absurd (h1 e (List.mem_cons_self _ _)) hsrc

/-- A validation failure names a concrete offending reference: either an
unknown source key or an unknown `main`-slot target, with the exact error
message built from it. -/
theorem validateConnections_some (names : List String) (m : Connections)
    (msg : String) (h : validateConnections names m = some msg) :
    ∃ bad, ¬ bad ∈ names ∧
      ((bad ∈ keys m ∧ msg = "Source node " ++ bad ++ " does not exist in workflow") ∨
       ((∃ ed ∈ mainEdges m, ed.target.node = bad) ∧
        msg = "Target node " ++ bad ++ " does not exist in workflow")) := by
  induction m with
  | nil => cases h
  | cons e rest ih =>
      by_cases hsrc : e.1 ∈ names
      · cases hlk : lookupKey "main" e.2 with
        | none =>
            simp only [validateConnections, if_neg (not_not_intro hsrc), hlk] at h
            obtain ⟨bad, hbn, hcase⟩ := ih h
            refine ⟨bad, hbn, ?_⟩
            rcases hcase with ⟨hk, hm⟩ | ⟨⟨ed, hed, hedb⟩, hm⟩
            · exact Or.inl ⟨by rw [keys_cons]; exact List.mem_cons_of_mem _ hk, hm⟩
            · exact Or.inr ⟨⟨ed, by
                rw [mainEdges_cons]; exact List.mem_append_right _ hed, hedb⟩, hm⟩
        | some slots =>
            simp only [validateConnections, if_neg (not_not_intro hsrc), hlk] at h
            cases hbad : firstInvalidTarget names slots with
            | none =>
                simp only [hbad] at h
                obtain ⟨bad, hbn, hcase⟩ := ih h
                refine ⟨bad, hbn, ?_⟩
                rcases hcase with ⟨hk, hm⟩ | ⟨⟨ed, hed, hedb⟩, hm⟩
                · exact Or.inl ⟨by rw [keys_cons]; exact List.mem_cons_of_mem _ hk, hm⟩
                · exact Or.inr ⟨⟨ed, by
                    rw [mainEdges_cons]; exact List.mem_append_right _ hed, hedb⟩, hm⟩
            | some bad =>
                simp only [hbad] at h
                obtain rfl : _ = msg := Option.some.inj h
                obtain ⟨hbn, s, hmem, c, hc, hcb⟩ :=
                  firstInvalidTarget_some names slots bad hbad
                obtain ⟨ed, hed, hedc⟩ :=
                  target_mem_slotsEdges e.1 "main" c 0 slots s hmem hc
                refine ⟨bad, hbn, Or.inr ⟨⟨ed, ?_, by rw [hedc, hcb]⟩, rfl⟩⟩
                rw [mainEdges_cons]
                refine List.mem_append_left _ (List.mem_filter.2
                  ⟨mem_slotMapEdges_of_lookup e.1 "main" e.2 slots hlk ed hed, ?_⟩)
                simpa using (slotsEdges_src_ty e.1 "main" 0 slots ed hed).2
      · simp only [validateConnections, if_pos hsrc] at h
        obtain rfl : _ = msg := Option.some.inj h
        exact ⟨e.1, hsrc, Or.inl ⟨by rw [keys_cons]; exact List.mem_cons_self _ _, rfl⟩⟩

/-- C3 (amended): `update_node_connections` validates every source key
and every Target stored under the `main` slot type; it installs the
supplied map wholesale exactly when validation passes (full replace,
round-trip exact), and a failure names the offending reference in its
error message while the document is left untouched. -/
theorem setConnections_main_replace (w : Workflow) (m : Connections)
    (hwf : ∀ e ∈ m, (keys e.2).Nodup) :
    (validateConnections (w.nodes.map fun nd => nd.name) m = none ↔
      (∀ e ∈ m, e.1 ∈ w.nodes.map fun nd => nd.name) ∧
      ∀ ed ∈ mainEdges m, ed.target.node ∈ w.nodes.map fun nd => nd.name) ∧
    (setConnections w m = .ok { w with connections := m } ↔
      validateConnections (w.nodes.map fun nd => nd.name) m = none) ∧
    (∀ msg, setConnections w m = .error msg →
      ∃ bad, ¬ bad ∈ (w.nodes.map fun nd => nd.name) ∧
        ((bad ∈ keys m ∧
          msg = "Source node " ++ bad ++ " does not exist in workflow") ∨
         ((∃ ed ∈ mainEdges m, ed.target.node = bad) ∧
          msg = "Target node " ++ bad ++ " does not exist in workflow"))) := by
  refine ⟨validateConnections_none_iff _ m hwf, ⟨?_, ?_⟩, ?_⟩
  · intro hok
    cases hv : validateConnections (w.nodes.map fun nd => nd.name) m with
    | none => rfl
    | some msg => simp only [setConnections, hv] at hok; cases hok
  · intro hv
    simp only [setConnections, hv]
  · intro msg herr
    cases hv : validateConnections (w.nodes.map fun nd => nd.name) m with
    | none => simp only [setConnections, hv] at herr; cases herr
    | some msg' =>
        simp only [setConnections, hv] at herr
        obtain rfl : msg' = msg := Except.error.inj herr
        exact validateConnections_some _ m _ hv

/-- C3 witness: a fully valid map over `cDocSet` is installed verbatim. -/
theorem setConnections_main_replace_witness :
    setConnections cDocSet cValidMap = .ok { cDocSet with connections := cValidMap } :=
  ((setConnections_main_replace cDocSet cValidMap (by decide)).2.1).mpr (by rfl)

/-! ### Orphan-detection lemmas and claim C6 -/

theorem exists_target_slotsEdges (src ty : String) (P : Target → Prop) (i : Nat)
    (slots : Slots) :
    (∃ e ∈ slotsEdges src ty i slots, P e.target) ↔
      ∃ slot ∈ slots, ∃ c ∈ slot, P c := by
  induction slots generalizing i with
  | nil => simp [slotsEdges]
  | cons slot rest ih =>
      constructor
      · rintro ⟨e, he, hP⟩
        rcases List.mem_append.1 he with he | he
        · obtain ⟨c, hc, rfl⟩ := List.mem_map.1 he
          exact ⟨slot, List.mem_cons_self _ _, c, hc, hP⟩
        · obtain ⟨s, hmem, c, hc, hPc⟩ := (ih (i + 1)).1 ⟨e, he, hP⟩
          exact ⟨s, List.mem_cons_of_mem _ hmem, c, hc, hPc⟩
      · rintro ⟨s, hmem, c, hc, hPc⟩
        rcases List.mem_cons.1 hmem with rfl | hmem
        · exact ⟨⟨src, ty, i, c⟩,
            List.mem_append_left _ (List.mem_map.2 ⟨c, hc, rfl⟩), hPc⟩
        · obtain ⟨e, he, hP⟩ := (ih (i + 1)).2 ⟨s, hmem, c, hc, hPc⟩
          exact ⟨e, List.mem_append_right _ he, hP⟩

theorem isConnectedName_true_iff (conns : Connections) (name : String)
    (hwf : ∀ e ∈ conns, (keys e.2).Nodup) :
    isConnectedName conns name = true ↔
      name ∈ keys conns ∨ ∃ ed ∈ mainEdges conns, ed.target.node = name := by
  induction conns with
  | nil => simp [isConnectedName, mainEdges, connectionEdges, keys]
  | cons e rest ih =>
      have hwfe := hwf e (List.mem_cons_self _ _)
      have ih' := ih fun x hx => hwf x (List.mem_cons_of_mem _ hx)
      have hpred : (decide (e.1 = name) ||
          (match lookupKey "main" e.2 with
           | some slots => slots.any fun slot => slot.any fun c => c.node = name
           | none => false)) = true ↔
          e.1 = name ∨
            ∃ ed ∈ (slotMapEdges e.1 e.2).filter (fun q => q.slotType = "main"),
              ed.target.node = name := by
        rw [mainEdges_entry e.1 e.2 hwfe]
        cases hlk : lookupKey "main" e.2 with
        | some slots =>
            simp only [Bool.or_eq_true, decide_eq_true_eq]
            apply or_congr_right
            rw [exists_target_slotsEdges e.1 "main" (fun t => t.node = name) 0 slots]
            simp [List.any_eq_true]
        | none => simp
      have hcons : isConnectedName (e :: rest) name = true ↔
          ((decide (e.1 = name) ||
            (match lookupKey "main" e.2 with
             | some slots => slots.any fun slot => slot.any fun c => c.node = name
             | none => false)) = true) ∨ isConnectedName rest name = true := by
        simp [isConnectedName, List.any_cons]
      rw [hcons, hpred, ih', mainEdges_cons, keys_cons]
      constructor
      · rintro ((h | ⟨ed, hed, hP⟩) | (h | ⟨ed, hed, hP⟩))
        · exact Or.inl (List.mem_cons.2 (Or.inl h.symm))
        · exact Or.inr ⟨ed, List.mem_append_left _ hed, hP⟩
        · exact Or.inl (List.mem_cons_of_mem _ h)
        · exact Or.inr ⟨ed, List.mem_append_right _ hed, hP⟩
      · rintro (h | ⟨ed, hed, hP⟩)
        · rcases List.mem_cons.1 h with h | h
          · exact Or.inl (Or.inl h.symm)
          · exact Or.inr (Or.inl h)
        · rcases List.mem_append.1 hed with hed | hed
          · exact Or.inl (Or.inr ⟨ed, hed, hP⟩)
          · exact Or.inr (Or.inr ⟨ed, hed, hP⟩)

theorem specConnectedName_true_iff (conns : Connections) (name : String) :
    specConnectedName conns name = true ↔
      name ∈ keys conns ∨ ∃ ed ∈ mainEdges conns, ed.target.node = name := by
  simp [specConnectedName, List.any_eq_true]

theorem isConnectedName_eq_spec (conns : Connections) (name : String)
    (hwf : ∀ e ∈ conns, (keys e.2).Nodup) :
    isConnectedName conns name = specConnectedName conns name := by
  have hbool : ∀ a b : Bool, (a = true ↔ b = true) → a = b := by decide
  exact hbool _ _ ((isConnectedName_true_iff conns name hwf).trans
    (specConnectedName_true_iff conns name).symm)

theorem filterMap_if_name (P : Node → Prop) [DecidablePred P] (l : List Node) :
    (l.filterMap fun nd => if P nd then some nd.name else none) =
      (l.filter fun nd => decide (P nd)).map fun nd => nd.name := by
  induction l with
  | nil => rfl
  | cons a rest ih =>
      by_cases h : P a
      · simp [List.filterMap_cons, List.filter_cons, h, ih]
      · simp [List.filterMap_cons, List.filter_cons, h, ih]

/-- C6 (amended): the orphan pass warns exactly about the nodes whose
name is neither a connections source key nor a Target stored under a
`main` slot type, and only in documents with more than one node; in
particular a one-node document yields no warning and a multi-node
document with empty connections flags every node. -/
theorem orphanWarnings_main_exemption (w : Workflow)
    (hwf : ∀ e ∈ w.connections, (keys e.2).Nodup) :
    orphanWarnings w =
      (if 1 < w.nodes.length then
        (w.nodes.filter fun nd => ! specConnectedName w.connections nd.name).map
          (fun nd => nd.name)
       else []) ∧
    (w.connections = [] →
      orphanWarnings w =
        if 1 < w.nodes.length then w.nodes.map (fun nd => nd.name) else []) := by
  have h1 : orphanWarnings w =
      (if 1 < w.nodes.length then
        (w.nodes.filter fun nd => ! specConnectedName w.connections nd.name).map
          (fun nd => nd.name)
       else []) := by
    by_cases hlen : 1 < w.nodes.length
    · rw [if_pos hlen]
      unfold orphanWarnings
      have hguard : ∀ nd : Node,
          (if ¬ isConnectedName w.connections nd.name = true ∧ 1 < w.nodes.length
           then some nd.name else none) =
          (if ¬ isConnectedName w.connections nd.name = true
           then some nd.name else none) := by
        intro nd
        by_cases hc : ¬ isConnectedName w.connections nd.name = true
        · rw [if_pos ⟨hc, hlen⟩, if_pos hc]
        · rw [if_neg fun hand => hc hand.1, if_neg hc]
      calc (w.nodes.filterMap fun nd =>
              if ¬ isConnectedName w.connections nd.name = true ∧ 1 < w.nodes.length
              then some nd.name else none)
          = w.nodes.filterMap fun nd =>
              if ¬ isConnectedName w.connections nd.name = true
              then some nd.name else none := by
            exact List.filterMap_congr fun nd _ => hguard nd
        _ = (w.nodes.filter fun nd =>
              decide (¬ isConnectedName w.connections nd.name = true)).map
                fun nd => nd.name := filterMap_if_name _ w.nodes
        _ = (w.nodes.filter fun nd =>
              ! specConnectedName w.connections nd.name).map fun nd => nd.name := by
            congr 1
            apply List.filter_congr
            intro nd _
            rw [← isConnectedName_eq_spec w.connections nd.name hwf]
            simp
    · rw [if_neg hlen]
      unfold orphanWarnings
      rw [List.filterMap_eq_nil_iff]
      intro nd _
      rw [if_neg fun hand => hlen hand.2]
  refine ⟨h1, fun hconn => ?_⟩
  rw [h1, hconn]
  by_cases hlen : 1 < w.nodes.length
  · rw [if_pos hlen, if_pos hlen]
    congr 1
    rw [List.filter_eq_self]
    intro nd _
    simp [specConnectedName, keys, mainEdges, connectionEdges]
  · rw [if_neg hlen, if_neg hlen]

/-- C6 witness: the two-node document `cDocDup` with empty connections
yields exactly its two node names as orphan warnings. -/
theorem orphanWarnings_main_exemption_witness :
    orphanWarnings cDocDup =
      if 1 < cDocDup.nodes.length then cDocDup.nodes.map (fun nd => nd.name)
      else [] :=
  (orphanWarnings_main_exemption cDocDup (by decide)).2 (by rfl)

end N8n
